import Mathlib

/-!
Shallow embedding of the Tower of Hanoi core logic from
`src/components/Game.tsx` and the variant component in
`src/unnamed/part_000` (the two files contain identical copies of
`generateInitialRods`, `computeMoves`, `computeMovesWithTrace`,
`applyMove` and the `activeStack` derivation; `part_000` additionally
contains `minimalMoves`).

Conventions of the embedding:
* A rod (peg) is a `List Nat` ordered bottom-to-top, as in the source
  (`src[src.length - 1]` is the top disk).
* The whole puzzle state (the `rods` array) is a `List (List Nat)`.
* JS numbers are modelled as `Nat`; the `Infinity` sentinel of
  `minimalMoves` is modelled as `⊤ : ℕ∞`.
* Array reads `rods[i]` are modelled with `List.getD i []` and writes
  with `List.set`; all claims quantify over in-range peg indices, where
  these coincide with the JS array semantics.
-/

/-- Source `type Move = [number, number]` from Game.tsx. -/
abbrev Move := Nat × Nat

/-- The `phase` field of a `RecursionStep`: `"enter" | "move" | "exit"`. -/
inductive Phase where
  | enter
  | move
  | exit
  deriving DecidableEq, Repr, BEq

/-- Source `type RecursionStep` from Game.tsx.  The source fields `from` and `to`
are Lean keywords and are rendered `fromPeg` / `toPeg`. -/
structure RecursionStep where
  depth : Nat
  n : Nat
  fromPeg : Nat
  toPeg : Nat
  aux : List Nat
  phase : Phase
  deriving DecidableEq, Repr, BEq

/-- The stack placed on rod 0 by `generateInitialRods`:
`Array.from({length: disks}, (_, i) => disks - i)`, i.e.
`[disks, disks-1, ..., 1]` bottom-to-top. -/
def towerStack (disks : Nat) : List Nat :=
  (List.range disks).map (fun i => disks - i)

/-- Source `generateInitialRods(pegs, disks)` from Game.tsx: `pegs` empty rods,
then `rods[0]` is assigned the full descending stack.  (For `pegs = 0`
the JS index assignment `rods[0] = ...` extends the empty array to a
one-element array, which `List.set` would not; all claims have
`pegs ≥ 2`.) -/
def generateInitialRods (pegs disks : Nat) : List (List Nat) :=
  if pegs = 0 then [towerStack disks]
  else (List.replicate pegs ([] : List Nat)).set 0 (towerStack disks)

/-- Source `computeMoves(n, from, to, aux, out)` from Game.tsx, with the `out`
push-buffer turned into the return value.  Branches in source order:
`n <= 0` produces nothing; `n === 1` emits one move; empty `aux` falls
back to a single direct ("cheat") move; otherwise recurse using
`temp = aux[0]`. -/
def computeMoves : Nat → Nat → Nat → List Nat → List Move
  | 0, _, _, _ => []
  | 1, f, t, _ => [(f, t)]
  | _ + 2, f, t, [] => [(f, t)]
  | n + 2, f, t, temp :: restAux =>
      computeMoves (n + 1) f temp (t :: restAux)
        ++ [(f, t)]
        ++ computeMoves (n + 1) temp t (f :: restAux)

/-- Source `computeMovesWithTrace(n, from, to, aux, out, trace, depth)` from
Game.tsx; the two push-buffers `out` and `trace` become the two
components of the returned pair. -/
def computeMovesWithTrace : Nat → Nat → Nat → List Nat → Nat →
    List Move × List RecursionStep
  | 0, _, _, _, _ => ([], [])
  | 1, f, t, aux, d =>
      ([(f, t)],
       [⟨d, 1, f, t, aux, .enter⟩, ⟨d, 1, f, t, aux, .move⟩,
        ⟨d, 1, f, t, aux, .exit⟩])
  | n + 2, f, t, [], d =>
      ([(f, t)],
       [⟨d, n + 2, f, t, [], .enter⟩, ⟨d, n + 2, f, t, [], .move⟩,
        ⟨d, n + 2, f, t, [], .exit⟩])
  | n + 2, f, t, temp :: restAux, d =>
      let r1 := computeMovesWithTrace (n + 1) f temp (t :: restAux) (d + 1)
      let r2 := computeMovesWithTrace (n + 1) temp t (f :: restAux) (d + 1)
      (r1.1 ++ [(f, t)] ++ r2.1,
       ⟨d, n + 2, f, t, temp :: restAux, .enter⟩ :: r1.2
         ++ [⟨d, n + 2, f, t, temp :: restAux, .move⟩] ++ r2.2
         ++ [⟨d, n + 2, f, t, temp :: restAux, .exit⟩])

/-- The inner `M(p, k)` of `minimalMoves` in `src/unnamed/part_000`
(the memo table is semantically transparent).  JS `Infinity` is `⊤ : ℕ∞`;
the `for (x = 1; x < k; x++) if (candidate < res) res = candidate` loop
is a fold over `x ∈ [1, k-1]` starting from `⊤`. -/
def M (p k : Nat) : ℕ∞ :=
  if k = 0 then 0
  else if k = 1 then 1
  else if p = 1 then ⊤
  else if p = 2 then ⊤
  else if p = 3 then ((2 ^ k - 1 : Nat) : ℕ∞)
  else
    (List.range (k - 1)).attach.foldl
      (fun res x =>
        let candidate := 2 * M p (x.1 + 1) + M (p - 1) (k - (x.1 + 1))
        if candidate < res then candidate else res) ⊤
termination_by (p, k)
decreasing_by
· have hx := List.mem_range.mp x.2
  apply Prod.Lex.right
  omega
· have hx := List.mem_range.mp x.2
  rcases Nat.eq_zero_or_pos p with hp | hp
  · subst hp
    apply Prod.Lex.right
    omega
  · exact Prod.Lex.left _ _ (by omega)

/-- Source `minimalMoves(pegs, n)` from `src/unnamed/part_000`. -/
def minimalMoves (pegs n : Nat) : ℕ∞ := M pegs n

/-- Source `applyMove([from, to])` from Game.tsx, as a pure state transition on
the `rods` list.  The source returns `prev` unchanged when the source
rod is empty and leaves the copied state unchanged on an illegal move
(`// illegal - ignore`); both cases are the identity here. -/
def applyMove (rods : List (List Nat)) (m : Move) : List (List Nat) :=
  let src := rods.getD m.1 []
  let dst := rods.getD m.2 []
  if src.length = 0 then rods
  else
    let disk := src.getLastD 0
    if dst.length = 0 ∨ disk < dst.getLastD 0 then
      (rods.set m.1 src.dropLast).set m.2 (dst ++ [disk])
    else rods

/-- Fold a move sequence through `applyMove` (the playback loop). -/
def applyMoves (rods : List (List Nat)) (ms : List Move) : List (List Nat) :=
  ms.foldl applyMove rods

/-- Modelled from the spec: `isLegalMove(state, from, to)` (§4.1).  The
repository has no function of this name; the predicate is inlined in
`applyMove` and `handleRodClick` as
`dst.length === 0 || disk < dst[dst.length - 1]` on a non-empty `src`.
Spec contract: true iff `from ≠ to`, rod `from` is non-empty, and
(rod `to` is empty OR top of `to` > top of `from`). -/
def isLegalMove (rods : List (List Nat)) (f t : Nat) : Bool :=
  decide (f ≠ t) && !(rods.getD f []).isEmpty &&
    ((rods.getD t []).isEmpty ||
      (rods.getD f []).getLastD 0 < (rods.getD t []).getLastD 0)

/-- Error kind `IllegalMoveError` from spec §7: the error `applyMove` is claimed to
signal on an illegal move. -/
inductive IllegalMoveError where
  | illegalMove
  deriving DecidableEq, Repr

/-- Modelled from the spec: `applyMove` as §4.1 describes it — "fails
with an `IllegalMoveError` (signaled, not silently ignored, to the
caller) when `isLegalMove` is false for that pair".  Used only to compare
the spec's error contract with the source's actual `applyMove`. -/
def applyMoveSpec (rods : List (List Nat)) (f t : Nat) :
    Except IllegalMoveError (List (List Nat)) :=
  if isLegalMove rods f t then
    Except.ok
      ((rods.set f (rods.getD f []).dropLast).set t
        ((rods.getD t []) ++ [(rods.getD f []).getLastD 0]))
  else Except.error IllegalMoveError.illegalMove

/-- Checks that every move of a sequence is legal in the state reached by
applying the previous moves (the "no `IllegalMoveError` at any
intermediate step" condition of the round-trip property). -/
def movesLegalFrom : List (List Nat) → List Move → Bool
  | _, [] => true
  | s, m :: ms => isLegalMove s m.1 m.2 && movesLegalFrom (applyMove s m) ms

/-- Multiset of all disks across all rods of a state. -/
def allDisks (s : List (List Nat)) : Multiset Nat :=
  (s.map (fun r => (r : Multiset Nat))).sum

/-- Dedup predicate of the second `activeStack` filter:
`s.depth === step.depth && s.n === step.n && s.from === step.from`. -/
def sameCall (a b : RecursionStep) : Bool :=
  a.depth == b.depth && a.n == b.n && a.fromPeg == b.fromPeg

/-- Exit-matching predicate of the first `activeStack` filter:
`s.depth === step.depth && s.n === step.n` (the `from` field is not
compared there). -/
def sameCallDN (a b : RecursionStep) : Bool :=
  a.depth == b.depth && a.n == b.n

/-- First stage of the `activeStack` derivation in Game.tsx:
`recursionTrace.slice(0, currentTraceIndex).filter(step => ...)`.
Steps are paired with their index in the full trace, which models the
JS `recursionTrace.indexOf(step)` (reference identity: each pushed step
object occurs at exactly one index).  `findIdx?` over the enumerated
full trace returns exactly the JS `findIndex` result (`none` ↔ `-1`). -/
def keepUnexited (trace : List RecursionStep) (cur : Nat) :
    List (Nat × RecursionStep) :=
  (trace.enum.take cur).filter fun p =>
    match trace.enum.findIdx? (fun q =>
        decide (p.1 < q.1) && sameCallDN q.2 p.2 && (q.2.phase == Phase.exit)) with
    | none => true
    | some i => decide (cur ≤ i)

/-- Second stage of the `activeStack` derivation: deduplicate by
`(depth, n, from)`, keeping a step iff the first index in the filtered
array holding a matching step is its own index. -/
def dedupByCall (arr : List RecursionStep) : List RecursionStep :=
  (arr.enum.filter fun p => arr.findIdx (fun s => sameCall p.2 s) == p.1).map
    (fun p => p.2)

/-- The `activeStack` computation of Game.tsx (also in
`src/unnamed/part_000`): slice the trace prefix, drop steps whose
matching later `exit` lies before the prefix boundary, then dedup. -/
def activeStack (trace : List RecursionStep) (cur : Nat) : List RecursionStep :=
  dedupByCall ((keepUnexited trace cur).map (fun p => p.2))

/-! ### Helper lemmas: `minimalMoves` -/

theorem M_three (k : Nat) : M 3 k = ((2 ^ k - 1 : Nat) : ℕ∞) := by
  match k with
  | 0 => rw [M]; norm_num
  | 1 => rw [M]; norm_num
  | k + 2 =>
    rw [M]
    have h0 : k + 2 ≠ 0 := by omega
    have h1 : k + 2 ≠ 1 := by omega
    norm_num [h0, h1]

theorem M_zero (p : Nat) : M p 0 = 0 := by
  rw [M]; norm_num

theorem M_one_peg (k : Nat) (h : 2 ≤ k) : M 1 k = ⊤ := by
  rw [M]
  have h0 : k ≠ 0 := by omega
  have h1 : k ≠ 1 := by omega
  simp [h0, h1]

theorem M_two_pegs (k : Nat) (h : 2 ≤ k) : M 2 k = ⊤ := by
  rw [M]
  have h0 : k ≠ 0 := by omega
  have h1 : k ≠ 1 := by omega
  simp [h0, h1]

/-! ### Helper lemmas: move counts -/

theorem computeMoves_length_singleAux (n : Nat) :
    ∀ f t a : Nat, (computeMoves n f t [a]).length = 2 ^ n - 1 := by
  induction n using Nat.strong_induction_on with
  | _ n ih =>
    intro f t a
    match n with
    | 0 => simp [computeMoves]
    | 1 => simp [computeMoves]
    | m + 2 =>
      have h1 := ih (m + 1) (by omega) f a t
      have h2 := ih (m + 1) (by omega) a t f
      have hp : 2 ^ (m + 2) = 2 * 2 ^ (m + 1) := by ring
      have hp1 : 1 ≤ 2 ^ (m + 1) := Nat.one_le_two_pow
      simp only [computeMoves, List.length_append, List.length_cons,
        List.length_nil, h1, h2]
      omega

/-! ### Claim C2 -/

/-- C2: the minimal-moves calculator satisfies `minimalMoves 3 k = 2^k - 1`
for every `k ≥ 0`, `minimalMoves p 0 = 0` for every peg count `p`, and
`minimalMoves 1 k` and `minimalMoves 2 k` are the unsolvable sentinel
(`⊤`, JS `Infinity`) for every `k ≥ 2`. -/
theorem minimalMoves_closed_forms :
    (∀ k, minimalMoves 3 k = ((2 ^ k - 1 : Nat) : ℕ∞)) ∧
    (∀ p, minimalMoves p 0 = 0) ∧
    (∀ k, 2 ≤ k → minimalMoves 1 k = ⊤ ∧ minimalMoves 2 k = ⊤) :=
  ⟨fun k => M_three k, fun p => M_zero p,
   fun k hk => ⟨M_one_peg k hk, M_two_pegs k hk⟩⟩

/-- Witness for C2's hypothesised part at `k = 2`. -/
theorem minimalMoves_closed_forms_witness :
    2 ≤ 2 ∧ minimalMoves 1 2 = ⊤ ∧ minimalMoves 2 2 = ⊤ :=
  ⟨by decide, (minimalMoves_closed_forms.2.2 2 (by decide)).1,
   (minimalMoves_closed_forms.2.2 2 (by decide)).2⟩

/-! ### Claim C5 -/

/-- C5: with an auxiliary list of length exactly 1 (the 3-peg case) the
generator produces exactly `2^n - 1` moves for every `n ≥ 1` and distinct
`from`/`to`, and this count equals `minimalMoves 3 n`. -/
theorem computeMoves_count_three_pegs :
    ∀ n f t a : Nat, 1 ≤ n → f ≠ t →
      (computeMoves n f t [a]).length = 2 ^ n - 1 ∧
      minimalMoves 3 n = (((computeMoves n f t [a]).length : Nat) : ℕ∞) := by
  intro n f t a _ _
  refine ⟨computeMoves_length_singleAux n f t a, ?_⟩
  rw [computeMoves_length_singleAux n f t a]
  exact M_three n

/-- Witness for C5 at `n = 3`, `from = 0`, `to = 2`, `aux = [1]`. -/
theorem computeMoves_count_three_pegs_witness :
    1 ≤ 3 ∧ (0 : Nat) ≠ 2 ∧
      ((computeMoves 3 0 2 [1]).length = 2 ^ 3 - 1 ∧
       minimalMoves 3 3 = (((computeMoves 3 0 2 [1]).length : Nat) : ℕ∞)) :=
  ⟨by decide, by decide,
   computeMoves_count_three_pegs 3 0 2 1 (by decide) (by decide)⟩

/-! ### Claim C10 -/

/-- C10: the plain generator `computeMoves` and the trace-emitting
generator `computeMovesWithTrace` emit exactly the same move sequence for
every input. -/
theorem computeMoves_trace_refinement :
    ∀ (n : Nat), ∀ f t : Nat, ∀ aux : List Nat, ∀ d : Nat,
      (computeMovesWithTrace n f t aux d).1 = computeMoves n f t aux := by
  intro n
  induction n using Nat.strong_induction_on with
  | _ n ih =>
    intro f t aux d
    match n, aux with
    | 0, _ => rfl
    | 1, _ => rfl
    | m + 2, [] => rfl
    | m + 2, temp :: restAux =>
      simp only [computeMovesWithTrace, computeMoves]
      rw [ih (m + 1) (by omega), ih (m + 1) (by omega)]

/-! ### Claim C7 -/

/-- C7: the `move`-phase events of the trace are in 1:1 order
correspondence with the move sequence: projecting the `move`-phase steps
to their `(from, to)` fields yields exactly the move list. -/
theorem trace_moves_correspondence :
    ∀ (n : Nat), ∀ f t : Nat, ∀ aux : List Nat, ∀ d : Nat,
      (((computeMovesWithTrace n f t aux d).2.filter
          (fun s => decide (s.phase = Phase.move))).map
        (fun s => (s.fromPeg, s.toPeg)))
        = (computeMovesWithTrace n f t aux d).1 := by
  intro n
  induction n using Nat.strong_induction_on with
  | _ n ih =>
    intro f t aux d
    match n, aux with
    | 0, _ => rfl
    | 1, _ => rfl
    | m + 2, [] => rfl
    | m + 2, temp :: restAux =>
      have h1 := ih (m + 1) (by omega) f temp (t :: restAux) (d + 1)
      have h2 := ih (m + 1) (by omega) temp t (f :: restAux) (d + 1)
      simp [computeMovesWithTrace, List.filter_append, List.filter_cons, h1, h2]

/-! ### Claim C6 -/

/-- C6 (amended): with `n > 1` and an empty auxiliary list the generator
emits a single direct move `(from, to)` together with plain
`enter`/`move`/`exit` trace steps that record the call's `n` and empty
`aux`; nothing in the output carries a `DegenerateFallbackUsed` flag. -/
theorem degenerate_fallback_shape :
    ∀ n f t d : Nat, 2 ≤ n →
      computeMovesWithTrace n f t [] d =
        ([(f, t)],
         [⟨d, n, f, t, [], Phase.enter⟩, ⟨d, n, f, t, [], Phase.move⟩,
          ⟨d, n, f, t, [], Phase.exit⟩]) := by
  intro n f t d h
  match n, h with
  | m + 2, _ => rfl

/-- Witness for the amended C6 at `n = 2` (the `pegCount = 2,
diskCount = 2` scenario, where `aux = []`). -/
theorem degenerate_fallback_shape_witness :
    2 ≤ 2 ∧
      computeMovesWithTrace 2 0 1 [] 0 =
        ([(0, 1)],
         [⟨0, 2, 0, 1, [], Phase.enter⟩, ⟨0, 2, 0, 1, [], Phase.move⟩,
          ⟨0, 2, 0, 1, [], Phase.exit⟩]) :=
  ⟨by decide, degenerate_fallback_shape 2 0 1 0 (by decide)⟩

/-- C6 counterexample: for `pegCount = 2, diskCount = 2` the degenerate
fallback's move output is `[(0, 1)]`, literally identical to the output
of a normal single-disk solve — the caller receives no
`DegenerateFallbackUsed` flag distinguishing the two. -/
theorem degenerate_fallback_unflagged_counterexample :
    (computeMovesWithTrace 2 0 1 [] 0).1 = [(0, 1)] ∧
    (computeMovesWithTrace 2 0 1 [] 0).1 = (computeMovesWithTrace 1 0 1 [] 0).1 :=
  ⟨rfl, rfl⟩

/-! ### Helper lemmas: `List.getD` / `List.set` -/

theorem getD_set_eq_of_lt {α : Type} (l : List α) (i : Nat) (x d : α)
    (h : i < l.length) : (l.set i x).getD i d = x := by
  simp [List.getD_eq_getElem?_getD, List.getElem?_set_self h]

theorem getD_set_ne_of_ne {α : Type} (l : List α) {i j : Nat} (x d : α)
    (h : i ≠ j) : (l.set i x).getD j d = l.getD j d := by
  simp [List.getD_eq_getElem?_getD, List.getElem?_set_ne h]

theorem set_getD_self {α : Type} (l : List α) (i : Nat) (d : α)
    (h : i < l.length) : l.set i (l.getD i d) = l := by
  apply List.ext_getElem?
  intro j
  by_cases hij : i = j
  · subst hij
    simp [List.getElem?_set_self h, List.getD_eq_getElem?_getD,
      List.getElem?_eq_getElem h]
  · simp [List.getElem?_set_ne hij]

/-! ### Claim C3 -/

/-- C3 counterexample: at the concrete illegal move `(0, 1)` on state
`[[2], [1]]` (top of rod 0 is larger than top of rod 1), the source's
`applyMove` returns the unchanged state as an ordinary result — exactly
what silently ignoring the move looks like — whereas the spec's
error-signaling contract (`applyMoveSpec`) demands an
`IllegalMoveError`. -/
theorem applyMove_no_error_signal_counterexample :
    isLegalMove [[2], [1]] 0 1 = false ∧
    applyMove [[2], [1]] (0, 1) = [[2], [1]] ∧
    applyMoveSpec [[2], [1]] 0 1 = Except.error IllegalMoveError.illegalMove :=
  ⟨by decide, by decide, rfl⟩

/-- C3 (amended): when `isLegalMove state from to` is false, `applyMove`
silently ignores the move — it returns the state unchanged and signals no
error to the caller. -/
theorem applyMove_illegal_silent_unchanged :
    ∀ (s : List (List Nat)) (f t : Nat), f < s.length → t < s.length →
      isLegalMove s f t = false → applyMove s (f, t) = s := by
  intro s f t _ _ hleg
  simp only [isLegalMove, Bool.and_eq_false_iff, Bool.or_eq_false_iff,
    decide_eq_false_iff_not, not_not, Bool.not_eq_false',
    List.isEmpty_eq_true, List.isEmpty_eq_false] at hleg
  simp only [applyMove]
  rcases hleg with (hft | hsrc) | ⟨hdst, hlt⟩
  · -- from = to: the top of `to` is never smaller than itself
    rw [hft]
    by_cases h0 : (s.getD t []).length = 0
    · rw [if_pos h0]
    · rw [if_neg h0, if_neg]
      rintro (h | h)
      · exact h0 h
      · exact lt_irrefl _ h
  · -- empty source rod
    rw [if_pos (by rw [hsrc]; rfl)]
  · -- non-empty destination with a smaller top disk
    by_cases h0 : (s.getD f []).length = 0
    · rw [if_pos h0]
    · rw [if_neg h0, if_neg]
      rintro (h | h)
      · exact hdst (List.length_eq_zero.mp h)
      · exact hlt h

/-- Witness for the amended C3 at state `[[2], [1]]`, move `(0, 1)`. -/
theorem applyMove_illegal_silent_unchanged_witness :
    (0 : Nat) < 2 ∧ (1 : Nat) < 2 ∧ isLegalMove [[2], [1]] 0 1 = false ∧
      applyMove [[2], [1]] (0, 1) = [[2], [1]] :=
  ⟨by decide, by decide, by decide,
   applyMove_illegal_silent_unchanged [[2], [1]] 0 1 (by decide) (by decide)
     (by decide)⟩

/-! ### Helper lemmas: the initial stack -/

theorem towerStack_succ (n : Nat) :
    towerStack (n + 1) = (n + 1) :: towerStack n := by
  simp only [towerStack, List.range_succ_eq_map, List.map_cons, Nat.sub_zero,
    List.map_map]
  refine congrArg _ (List.map_congr_left fun a _ => ?_)
  simp [Function.comp]

theorem towerStack_reverse (d : Nat) :
    (towerStack d).reverse = List.range' 1 d := by
  induction d with
  | zero => rfl
  | succ m ih =>
    rw [towerStack_succ, List.reverse_cons, ih, List.range'_1_concat]
    simp [Nat.add_comm]

theorem towerStack_perm (d : Nat) : (towerStack d).Perm (List.range' 1 d) := by
  rw [← towerStack_reverse]
  exact (List.reverse_perm (towerStack d)).symm

theorem towerStack_head (d : Nat) (h : 1 ≤ d) :
    (towerStack d).head? = some d := by
  match d, h with
  | m + 1, _ => rw [towerStack_succ]; rfl

theorem towerStack_getLast (d : Nat) (h : 1 ≤ d) :
    (towerStack d).getLast? = some 1 := by
  induction d with
  | zero => omega
  | succ m ih =>
    match m, ih with
    | 0, _ => rfl
    | k + 1, ih =>
      rw [towerStack_succ, towerStack_succ, List.getLast?_cons_cons,
        ← towerStack_succ]
      exact ih (by omega)

theorem towerStack_chain (d : Nat) :
    List.Chain' (fun x y => y < x) (towerStack d) := by
  induction d with
  | zero => exact List.chain'_nil
  | succ m ih =>
    match m, ih with
    | 0, _ => exact List.chain'_singleton 1
    | k + 1, ih =>
      rw [towerStack_succ, towerStack_succ, List.chain'_cons, ← towerStack_succ]
      exact ⟨by omega, ih⟩

/-! ### Claim C9 -/

/-- C9: for every valid configuration (`2 ≤ pegCount ≤ 8`,
`1 ≤ diskCount ≤ 8`) the initial state has `pegCount` rods, rod 0 holds
exactly the disks `{1..diskCount}` (bottom disk `diskCount`, top disk
`1`, sizes strictly decreasing bottom-to-top) and every other rod is
empty. -/
theorem initialRods_spec :
    ∀ pegs disks : Nat, 2 ≤ pegs → pegs ≤ 8 → 1 ≤ disks → disks ≤ 8 →
      (generateInitialRods pegs disks).length = pegs ∧
      ((generateInitialRods pegs disks).getD 0 []).Perm (List.range' 1 disks) ∧
      (∀ j, j < pegs → j ≠ 0 → (generateInitialRods pegs disks).getD j [] = []) ∧
      ((generateInitialRods pegs disks).getD 0 []).head? = some disks ∧
      ((generateInitialRods pegs disks).getD 0 []).getLast? = some 1 ∧
      List.Chain' (fun x y => y < x) ((generateInitialRods pegs disks).getD 0 []) := by
  intro pegs disks h1 _ h3 _
  have hp0 : pegs ≠ 0 := by omega
  have hrods : generateInitialRods pegs disks =
      (List.replicate pegs ([] : List Nat)).set 0 (towerStack disks) := by
    simp [generateInitialRods, hp0]
  have h0 : (generateInitialRods pegs disks).getD 0 [] = towerStack disks := by
    rw [hrods]
    exact getD_set_eq_of_lt _ 0 _ _ (by simp; omega)
  refine ⟨?_, ?_, ?_, ?_, ?_, ?_⟩
  · rw [hrods]
    simp
  · rw [h0]
    exact towerStack_perm disks
  · intro j _ hj0
    rw [hrods, getD_set_ne_of_ne _ _ _ (fun h => hj0 h.symm)]
    simp only [List.getD_eq_getElem?_getD, List.getElem?_replicate]
    split <;> rfl
  · rw [h0]
    exact towerStack_head disks h3
  · rw [h0]
    exact towerStack_getLast disks h3
  · rw [h0]
    exact towerStack_chain disks

/-- Witness for C9 at `pegCount = 3`, `diskCount = 4`. -/
theorem initialRods_spec_witness :
    2 ≤ 3 ∧ (3 : Nat) ≤ 8 ∧ 1 ≤ 4 ∧ (4 : Nat) ≤ 8 ∧
      ((generateInitialRods 3 4).length = 3 ∧
       ((generateInitialRods 3 4).getD 0 []).Perm (List.range' 1 4) ∧
       (∀ j, j < 3 → j ≠ 0 → (generateInitialRods 3 4).getD j [] = []) ∧
       ((generateInitialRods 3 4).getD 0 []).head? = some 4 ∧
       ((generateInitialRods 3 4).getD 0 []).getLast? = some 1 ∧
       List.Chain' (fun x y => y < x) ((generateInitialRods 3 4).getD 0 [])) :=
  ⟨by decide, by decide, by decide, by decide,
   initialRods_spec 3 4 (by decide) (by decide) (by decide) (by decide)⟩

/-! ### Helper lemmas: multiset of disks -/

theorem allDisks_nil : allDisks [] = 0 := rfl

theorem allDisks_cons (r : List Nat) (rs : List (List Nat)) :
    allDisks (r :: rs) = (r : Multiset Nat) + allDisks rs := by
  simp [allDisks]

theorem allDisks_set (s : List (List Nat)) (i : Nat) (x : List Nat)
    (h : i < s.length) :
    allDisks (s.set i x) + (s.getD i [] : Multiset Nat) =
      allDisks s + (x : Multiset Nat) := by
  induction s generalizing i with
  | nil => simp at h
  | cons r rs ih =>
    cases i with
    | zero =>
      simp only [List.set_cons_zero, allDisks_cons, List.getD_cons_zero]
      abel
    | succ j =>
      have hj : j < rs.length := by
        simp at h
        omega
      simp only [List.set_cons_succ, allDisks_cons, List.getD_cons_succ]
      have := ih j hj
      rw [add_assoc, this, ← add_assoc]

theorem applyMove_length (s : List (List Nat)) (m : Move) :
    (applyMove s m).length = s.length := by
  simp only [applyMove]
  split
  · rfl
  · split
    · simp
    · rfl

theorem applyMove_allDisks (s : List (List Nat)) (f t : Nat)
    (hf : f < s.length) (ht : t < s.length) :
    allDisks (applyMove s (f, t)) = allDisks s := by
  simp only [applyMove]
  by_cases h0 : (s.getD f []).length = 0
  · rw [if_pos h0]
  · rw [if_neg h0]
    by_cases hc : (s.getD t []).length = 0 ∨
        (s.getD f []).getLastD 0 < (s.getD t []).getLastD 0
    · rw [if_pos hc]
      -- the legal branch is unreachable for `f = t`
      have hft : f ≠ t := by
        intro he
        rcases hc with hc | hc
        · exact h0 (he ▸ hc)
        · rw [← he] at hc
          exact lt_irrefl _ hc
      -- decompose the source rod into its initial part and top disk
      rcases List.eq_nil_or_concat' (s.getD f []) with hnil | ⟨L, b, hLb⟩
      · rw [hnil] at h0
        exact absurd rfl h0
      have hdrop : (s.getD f []).dropLast = L := by
        rw [hLb]
        exact List.dropLast_concat
      have htop : (s.getD f []).getLastD 0 = b := by
        rw [hLb]
        exact List.getLastD_concat _ _ _
      have h1 := allDisks_set s f ((s.getD f []).dropLast) hf
      have h2 := allDisks_set (s.set f ((s.getD f []).dropLast)) t
        ((s.getD t []) ++ [(s.getD f []).getLastD 0]) (by simpa using ht)
      rw [getD_set_ne_of_ne _ _ _ hft] at h2
      -- combine the two exchange equations by cancellation
      have hsrc : ((s.getD f [] : List Nat) : Multiset Nat) =
          ((s.getD f []).dropLast : List Nat) + ({b} : Multiset Nat) := by
        rw [hdrop, hLb, ← Multiset.coe_singleton, Multiset.coe_add]
      have hdst : (((s.getD t []) ++ [(s.getD f []).getLastD 0] : List Nat) :
            Multiset Nat) =
          ((s.getD t [] : List Nat) : Multiset Nat) + ({b} : Multiset Nat) := by
        rw [htop, ← Multiset.coe_singleton, Multiset.coe_add]
      have key1 : allDisks (s.set f ((s.getD f []).dropLast)) +
          ({b} : Multiset Nat) = allDisks s := by
        apply add_right_cancel
          (b := (((s.getD f []).dropLast : List Nat) : Multiset Nat))
        calc allDisks (s.set f ((s.getD f []).dropLast)) + ({b} : Multiset Nat)
              + (((s.getD f []).dropLast : List Nat) : Multiset Nat)
            = allDisks (s.set f ((s.getD f []).dropLast)) +
              ((s.getD f [] : List Nat) : Multiset Nat) := by
              rw [hsrc]
              abel
          _ = allDisks s +
              (((s.getD f []).dropLast : List Nat) : Multiset Nat) := h1
      apply add_right_cancel (b := ((s.getD t [] : List Nat) : Multiset Nat))
      calc allDisks ((s.set f ((s.getD f []).dropLast)).set t
              ((s.getD t []) ++ [(s.getD f []).getLastD 0])) +
              ((s.getD t [] : List Nat) : Multiset Nat)
          = allDisks (s.set f ((s.getD f []).dropLast)) +
            (((s.getD t []) ++ [(s.getD f []).getLastD 0] : List Nat) :
              Multiset Nat) := h2
        _ = allDisks (s.set f ((s.getD f []).dropLast)) + ({b} : Multiset Nat)
            + ((s.getD t [] : List Nat) : Multiset Nat) := by
            rw [hdst]
            abel
        _ = allDisks s + ((s.getD t [] : List Nat) : Multiset Nat) := by
            rw [key1]
    · rw [if_neg hc]

/-! ### Claim C4 -/

/-- C4: for every state whose disks form exactly the multiset
`{1..diskCount}` and every sequence of (in-range) `applyMove` calls, the
multiset of all disks across all rods is still exactly `{1..diskCount}`
— no disk is duplicated or lost.  (This holds for every move sequence:
legal moves relocate their top disk, and illegal ones leave the state
unchanged, so in particular it holds when all calls succeed.) -/
theorem applyMove_multiset_invariant :
    ∀ (d : Nat) (s : List (List Nat)) (ms : List Move),
      (∀ m ∈ ms, m.1 < s.length ∧ m.2 < s.length) →
      allDisks s = ((List.range' 1 d : List Nat) : Multiset Nat) →
      allDisks (applyMoves s ms) =
        ((List.range' 1 d : List Nat) : Multiset Nat) := by
  intro d s ms
  induction ms generalizing s with
  | nil => exact fun _ h => h
  | cons m rest ih =>
    intro hin h
    have hm := hin m (List.mem_cons_self m rest)
    have step : allDisks (applyMove s m) = allDisks s := by
      have := applyMove_allDisks s m.1 m.2 hm.1 hm.2
      rwa [Prod.mk.eta] at this
    simp only [applyMoves, List.foldl_cons]
    have hrest : ∀ x ∈ rest, x.1 < (applyMove s m).length ∧
        x.2 < (applyMove s m).length := by
      intro x hx
      rw [applyMove_length]
      exact hin x (List.mem_cons_of_mem m hx)
    exact ih (applyMove s m) hrest (step.trans h)

/-- Witness for C4 with one disk, two rods and the single legal move
`(0, 1)`. -/
theorem applyMove_multiset_invariant_witness :
    (∀ m ∈ ([(0, 1)] : List Move),
        m.1 < ([[1], []] : List (List Nat)).length ∧
        m.2 < ([[1], []] : List (List Nat)).length) ∧
    allDisks [[1], []] = ((List.range' 1 1 : List Nat) : Multiset Nat) ∧
    allDisks (applyMoves [[1], []] [(0, 1)]) =
      ((List.range' 1 1 : List Nat) : Multiset Nat) :=
  ⟨by decide, rfl,
   applyMove_multiset_invariant 1 [[1], []] [(0, 1)] (by decide) rfl⟩

/-! ### Helper lemmas: legality and state decomposition -/

theorem applyMoves_append (s : List (List Nat)) (l1 l2 : List Move) :
    applyMoves s (l1 ++ l2) = applyMoves (applyMoves s l1) l2 := by
  simp [applyMoves, List.foldl_append]

theorem movesLegalFrom_append (s : List (List Nat)) (l1 l2 : List Move) :
    movesLegalFrom s (l1 ++ l2) =
      (movesLegalFrom s l1 && movesLegalFrom (applyMoves s l1) l2) := by
  induction l1 generalizing s with
  | nil => simp [movesLegalFrom, applyMoves]
  | cons m rest ih =>
    simp only [List.cons_append, movesLegalFrom, List.append_eq]
    rw [ih (applyMove s m)]
    simp only [applyMoves, List.foldl_cons]
    rw [Bool.and_assoc]

theorem getLastD_mem (l : List Nat) (d : Nat) (h : l ≠ []) :
    l.getLastD d ∈ l := by
  rcases List.eq_nil_or_concat' l with rfl | ⟨L, c, rfl⟩
  · exact absurd rfl h
  · rw [List.getLastD_concat]
    simp

theorem isLegalMove_of_concat (s : List (List Nat)) (f t : Nat)
    (L : List Nat) (b : Nat) (hft : f ≠ t) (hsrc : s.getD f [] = L ++ [b])
    (hdst : ∀ x ∈ s.getD t [], b < x) : isLegalMove s f t = true := by
  have h1 : decide (f ≠ t) = true := by simp [hft]
  have h2 : (!(s.getD f []).isEmpty) = true := by
    rw [hsrc]
    simp
  have h3 : ((s.getD t []).isEmpty ||
      (s.getD f []).getLastD 0 < (s.getD t []).getLastD 0) = true := by
    rcases List.eq_nil_or_concat' (s.getD t []) with hnil | ⟨L2, c, hL2⟩
    · rw [hnil]
      rfl
    · have hc : b < c := hdst c (by rw [hL2]; simp)
      rw [hsrc, hL2, List.getLastD_concat, List.getLastD_concat]
      simp [hc]
  simp only [isLegalMove, h1, h2, h3, Bool.and_self]

theorem applyMove_eq_of_concat (s : List (List Nat)) (f t : Nat)
    (L : List Nat) (b : Nat) (hsrc : s.getD f [] = L ++ [b])
    (hcond : (s.getD t []).length = 0 ∨ b < (s.getD t []).getLastD 0) :
    applyMove s (f, t) = (s.set f L).set t (s.getD t [] ++ [b]) := by
  simp only [applyMove]
  have hlen : ¬((s.getD f []).length = 0) := by
    rw [hsrc]
    simp
  have htop : (s.getD f []).getLastD 0 = b := by
    rw [hsrc]
    exact List.getLastD_concat _ _ _
  have hdrop : (s.getD f []).dropLast = L := by
    rw [hsrc]
    exact List.dropLast_concat
  rw [if_neg hlen, htop, hdrop, if_pos hcond]

theorem eq_of_length3 (s1 s2 : List (List Nat)) (h1 : s1.length = 3)
    (h2 : s2.length = 3) (h : ∀ i, i < 3 → s1.getD i [] = s2.getD i []) :
    s1 = s2 := by
  obtain ⟨a0, a1, a2, rfl⟩ := List.length_eq_three.mp h1
  obtain ⟨b0, b1, b2, rfl⟩ := List.length_eq_three.mp h2
  have f0 : a0 = b0 := h 0 (by omega)
  have f1 : a1 = b1 := h 1 (by omega)
  have f2 : a2 = b2 := h 2 (by omega)
  rw [f0, f1, f2]

/-- Soundness of the 3-peg recursive solver: if rod `f` holds the tower
`[n, ..., 1]` on top of larger disks `bf`, and every disk on rods `t` and
`a` is larger than `n`, then the generated move sequence is legal at
every step and transfers exactly the tower onto rod `t`, leaving rod `a`
as it was. -/
theorem hanoi_sound :
    ∀ (n : Nat), ∀ (f t a : Nat) (s : List (List Nat)) (bf : List Nat),
      s.length = 3 → f < 3 → t < 3 → a < 3 → f ≠ t → f ≠ a → t ≠ a →
      s.getD f [] = bf ++ towerStack n →
      (∀ x ∈ bf, n < x) →
      (∀ x ∈ s.getD t [], n < x) →
      (∀ x ∈ s.getD a [], n < x) →
      movesLegalFrom s (computeMoves n f t [a]) = true ∧
      applyMoves s (computeMoves n f t [a]) =
        (s.set f bf).set t (s.getD t [] ++ towerStack n) := by
  intro n
  induction n using Nat.strong_induction_on with
  | _ n ih =>
    intro f t a s bf hlen hf ht ha hft hfa hta hsrc hbf hdt hda
    match n, hsrc, hbf, hdt, hda with
    | 0, hsrc, hbf, hdt, hda =>
      have h1 : s.getD f [] = bf := by
        rw [hsrc, show towerStack 0 = [] from rfl, List.append_nil]
      have hsetf : s.set f bf = s := by
        rw [← h1]
        exact set_getD_self s f [] (by omega)
      constructor
      · rfl
      · have hts : towerStack 0 = [] := rfl
        rw [hts, List.append_nil, hsetf, set_getD_self s t [] (by omega)]
        rfl
    | 1, hsrc, hbf, hdt, hda =>
      have hts1 : towerStack 1 = [1] := rfl
      have hsrc1 : s.getD f [] = bf ++ [1] := by rw [hsrc, hts1]
      have hleg : isLegalMove s f t = true :=
        isLegalMove_of_concat s f t bf 1 hft hsrc1 hdt
      have hcond : (s.getD t []).length = 0 ∨ 1 < (s.getD t []).getLastD 0 := by
        rcases List.eq_nil_or_concat' (s.getD t []) with hnil | ⟨L2, c, hL2⟩
        · left
          rw [hnil]
          rfl
        · right
          exact hdt _ (getLastD_mem _ _ (by rw [hL2]; simp))
      have happ : applyMove s (f, t) = (s.set f bf).set t (s.getD t [] ++ [1]) :=
        applyMove_eq_of_concat s f t bf 1 hsrc1 hcond
      constructor
      · simp [computeMoves, movesLegalFrom, hleg]
      · show applyMoves s [(f, t)] = _
        rw [hts1]
        calc applyMoves s [(f, t)] = applyMove s (f, t) := rfl
          _ = (s.set f bf).set t (s.getD t [] ++ [1]) := happ
    | m + 2, hsrc, hbf, hdt, hda =>
      have hts : towerStack (m + 2) = (m + 2) :: towerStack (m + 1) :=
        towerStack_succ (m + 1)
      -- first recursive call: move the top m+1 disks from f to a
      have hsrc1 : s.getD f [] = (bf ++ [m + 2]) ++ towerStack (m + 1) := by
        rw [hsrc, hts, List.append_cons]
      have hbf1 : ∀ x ∈ bf ++ [m + 2], m + 1 < x := by
        intro x hx
        rcases List.mem_append.mp hx with hx | hx
        · have := hbf x hx
          omega
        · simp at hx
          omega
      have hdt1 : ∀ x ∈ s.getD a [], m + 1 < x := fun x hx => by
        have := hda x hx
        omega
      have hda1 : ∀ x ∈ s.getD t [], m + 1 < x := fun x hx => by
        have := hdt x hx
        omega
      obtain ⟨leg1, st1⟩ := ih (m + 1) (by omega) f a t s (bf ++ [m + 2])
        hlen hf ha ht hfa hft (Ne.symm hta) hsrc1 hbf1 hdt1 hda1
      -- the intermediate state after the first recursive call
      have hs1f : (applyMoves s (computeMoves (m + 1) f a [t])).getD f [] =
          bf ++ [m + 2] := by
        rw [st1, getD_set_ne_of_ne _ _ _ (Ne.symm hfa),
          getD_set_eq_of_lt _ _ _ _ (by omega)]
      have hs1t : (applyMoves s (computeMoves (m + 1) f a [t])).getD t [] =
          s.getD t [] := by
        rw [st1, getD_set_ne_of_ne _ _ _ (Ne.symm hta),
          getD_set_ne_of_ne _ _ _ hft]
      have hs1a : (applyMoves s (computeMoves (m + 1) f a [t])).getD a [] =
          s.getD a [] ++ towerStack (m + 1) := by
        rw [st1, getD_set_eq_of_lt _ _ _ _ (by simp [hlen]; omega)]
      have hs1len : (applyMoves s (computeMoves (m + 1) f a [t])).length = 3 := by
        rw [st1]
        simp [hlen]
      -- the middle move (f, t) carries disk m+2
      have hlegmid : isLegalMove (applyMoves s (computeMoves (m + 1) f a [t])) f t
          = true := by
        apply isLegalMove_of_concat _ f t bf (m + 2) hft hs1f
        intro x hx
        rw [hs1t] at hx
        exact hdt x hx
      have hcondmid :
          ((applyMoves s (computeMoves (m + 1) f a [t])).getD t []).length = 0 ∨
          m + 2 <
            ((applyMoves s (computeMoves (m + 1) f a [t])).getD t []).getLastD 0 := by
        rcases List.eq_nil_or_concat'
            ((applyMoves s (computeMoves (m + 1) f a [t])).getD t []) with
          hnil | ⟨L2, c, hL2⟩
        · left
          rw [hnil]
          rfl
        · right
          have hmem := getLastD_mem
            ((applyMoves s (computeMoves (m + 1) f a [t])).getD t []) 0
            (by rw [hL2]; simp)
          rw [hs1t] at hmem
          rw [hs1t]
          exact hdt _ hmem
      have happmid := applyMove_eq_of_concat
        (applyMoves s (computeMoves (m + 1) f a [t])) f t bf (m + 2) hs1f hcondmid
      -- state after the middle move
      have hs2len : (applyMove (applyMoves s (computeMoves (m + 1) f a [t]))
          (f, t)).length = 3 := by
        rw [applyMove_length, hs1len]
      have hs2f : (applyMove (applyMoves s (computeMoves (m + 1) f a [t]))
          (f, t)).getD f [] = bf := by
        rw [happmid, getD_set_ne_of_ne _ _ _ (Ne.symm hft),
          getD_set_eq_of_lt _ _ _ _ (by rw [hs1len]; omega)]
      have hs2t : (applyMove (applyMoves s (computeMoves (m + 1) f a [t]))
          (f, t)).getD t [] = s.getD t [] ++ [m + 2] := by
        rw [happmid, getD_set_eq_of_lt _ _ _ _ (by simp [hs1len]; omega), hs1t]
      have hs2a : (applyMove (applyMoves s (computeMoves (m + 1) f a [t]))
          (f, t)).getD a [] = s.getD a [] ++ towerStack (m + 1) := by
        rw [happmid, getD_set_ne_of_ne _ _ _ hta,
          getD_set_ne_of_ne _ _ _ hfa, hs1a]
      -- second recursive call: move the m+1 disks from a to t
      have hbf2 : ∀ x ∈ s.getD a [], m + 1 < x := hdt1
      have hdt2 : ∀ x ∈ (applyMove (applyMoves s (computeMoves (m + 1) f a [t]))
          (f, t)).getD t [], m + 1 < x := by
        intro x hx
        rw [hs2t] at hx
        rcases List.mem_append.mp hx with hx | hx
        · have := hdt x hx
          omega
        · simp at hx
          omega
      have hda2 : ∀ x ∈ (applyMove (applyMoves s (computeMoves (m + 1) f a [t]))
          (f, t)).getD f [], m + 1 < x := by
        intro x hx
        rw [hs2f] at hx
        have := hbf x hx
        omega
      obtain ⟨leg2, st2⟩ := ih (m + 1) (by omega) a t f
        (applyMove (applyMoves s (computeMoves (m + 1) f a [t])) (f, t))
        (s.getD a []) hs2len ha ht hf (Ne.symm hta) (Ne.symm hfa) (Ne.symm hft)
        hs2a hbf2 hdt2 hda2
      -- assemble the three segments
      have hcm : computeMoves (m + 2) f t [a] =
          computeMoves (m + 1) f a [t] ++ [(f, t)] ++
            computeMoves (m + 1) a t [f] := rfl
      have happA : applyMoves s
          (computeMoves (m + 1) f a [t] ++ [(f, t)]) =
          applyMove (applyMoves s (computeMoves (m + 1) f a [t])) (f, t) := by
        rw [applyMoves_append]
        rfl
      constructor
      · rw [hcm, movesLegalFrom_append, movesLegalFrom_append]
        rw [leg1, happA]
        have hmid : movesLegalFrom
            (applyMoves s (computeMoves (m + 1) f a [t])) [(f, t)] = true := by
          simp [movesLegalFrom, hlegmid]
        rw [hmid, leg2]
        rfl
      · rw [hcm, applyMoves_append, happA, st2]
        -- both sides are length-3 states; compare rod by rod
        apply eq_of_length3
        · simp [applyMove_length, hs1len, hlen]
        · simp [hlen]
        · intro i hi
          have hcases : i = f ∨ i = t ∨ i = a := by omega
          rcases hcases with rfl | rfl | rfl
          · -- rod f: left with bf on both sides
            rw [getD_set_ne_of_ne _ _ _ (Ne.symm hft),
              getD_set_ne_of_ne _ _ _ (Ne.symm hfa), hs2f,
              getD_set_ne_of_ne _ _ _ (Ne.symm hft),
              getD_set_eq_of_lt _ _ _ _ (by omega)]
          · -- rod t: receives the m+1 tower on top of disk m+2
            rw [getD_set_eq_of_lt _ _ _ _ (by simp [hs2len]; omega), hs2t,
              getD_set_eq_of_lt _ _ _ _ (by simp [hlen]; omega), hts]
            simp
          · -- rod a: restored to its original contents
            rw [getD_set_ne_of_ne _ _ _ hta,
              getD_set_eq_of_lt _ _ _ _ (by simp [hs2len]; omega),
              getD_set_ne_of_ne _ _ _ hta, getD_set_ne_of_ne _ _ _ hfa]

/-! ### Claim C1 -/

/-- C1: for `pegCount = 3` (auxiliary rod 1), every move produced by the
generator for `diskCount = d` is legal at the state where it is applied
(no `IllegalMoveError` at any intermediate step), and applying the whole
sequence to the initial state leaves all `d` disks on rod 2
(`pegCount - 1`). -/
theorem solver_roundtrip_three_pegs :
    ∀ d : Nat,
      movesLegalFrom (generateInitialRods 3 d) (computeMoves d 0 2 [1]) = true ∧
      applyMoves (generateInitialRods 3 d) (computeMoves d 0 2 [1]) =
        [[], [], towerStack d] := by
  intro d
  have hinit : generateInitialRods 3 d = [towerStack d, [], []] := by
    simp [generateInitialRods, List.replicate]
  obtain ⟨hl, hs⟩ := hanoi_sound d 0 2 1 [towerStack d, [], []] []
    rfl (by omega) (by omega) (by omega) (by omega) (by omega) (by omega)
    (by simp) (by simp) (by simp [List.getD]) (by simp [List.getD])
  rw [hinit]
  refine ⟨hl, ?_⟩
  rw [hs]
  rfl

/-! ### Helper lemmas: the active-stack derivation -/

theorem trace_ends_with_exit (n f t : Nat) (aux : List Nat) (d : Nat)
    (h : 1 ≤ n) :
    ∃ pre, (computeMovesWithTrace n f t aux d).2 =
      pre ++ [⟨d, n, f, t, aux, Phase.exit⟩] := by
  match n, h with
  | 1, _ =>
    exact ⟨[⟨d, 1, f, t, aux, Phase.enter⟩, ⟨d, 1, f, t, aux, Phase.move⟩], rfl⟩
  | m + 2, _ =>
    match aux with
    | [] =>
      exact ⟨[⟨d, m + 2, f, t, [], Phase.enter⟩,
        ⟨d, m + 2, f, t, [], Phase.move⟩], rfl⟩
    | temp :: rest =>
      refine ⟨⟨d, m + 2, f, t, temp :: rest, Phase.enter⟩ ::
        ((computeMovesWithTrace (m + 1) f temp (t :: rest) (d + 1)).2 ++
         [⟨d, m + 2, f, t, temp :: rest, Phase.move⟩] ++
         (computeMovesWithTrace (m + 1) temp t (f :: rest) (d + 1)).2), ?_⟩
      simp [computeMovesWithTrace, List.append_assoc]

theorem keepUnexited_full_mem (pre : List RecursionStep) (st : RecursionStep) :
    (pre.length, st) ∈ keepUnexited (pre ++ [st]) (pre ++ [st]).length := by
  unfold keepUnexited
  rw [← List.enum_length, List.take_length]
  apply List.mem_filter.mpr
  refine ⟨?_, ?_⟩
  · rw [List.enum_append]
    apply List.mem_append_right
    simp [List.enumFrom]
  · have hnone : ((pre ++ [st]).enum.findIdx? (fun q =>
        decide ((pre.length, st).1 < q.1) && sameCallDN q.2 (pre.length, st).2 &&
          (q.2.phase == Phase.exit))) = none := by
      rw [List.findIdx?_eq_none_iff]
      intro q hq
      have hlt : q.1 < 0 + (pre ++ [st]).length :=
        List.fst_lt_add_of_mem_enumFrom hq
      have hlen : (pre ++ [st]).length = pre.length + 1 := by simp
      have : decide ((pre.length, st).1 < q.1) = false := by
        simp only [decide_eq_false_iff_not]
        omega
      rw [this]
      rfl
    rw [List.enum_length, hnone]

theorem dedupByCall_cons_ne_nil (x : RecursionStep) (xs : List RecursionStep) :
    dedupByCall (x :: xs) ≠ [] := by
  unfold dedupByCall
  rw [List.enum_cons]
  have hpred : ((x :: xs).findIdx (fun s => sameCall x s) == (0 : Nat)) = true := by
    rw [List.findIdx_cons]
    have hxx : sameCall x x = true := by simp [sameCall]
    rw [hxx]
    rfl
  have hm : ((0 : Nat), x) ∈ List.filter
      (fun p => List.findIdx (fun s => sameCall p.2 s) (x :: xs) == p.1)
      ((0, x) :: List.enumFrom 1 xs) :=
    List.mem_filter.mpr ⟨List.mem_cons_self _ _, hpred⟩
  intro hnil
  rw [List.map_eq_nil_iff] at hnil
  exact List.ne_nil_of_mem hm hnil

theorem activeStack_full_of_ends_exit (pre : List RecursionStep)
    (st : RecursionStep) :
    activeStack (pre ++ [st]) (pre ++ [st]).length ≠ [] := by
  have hmem := keepUnexited_full_mem pre st
  have harr : (keepUnexited (pre ++ [st]) (pre ++ [st]).length).map
      (fun p => p.2) ≠ [] := by
    intro hnil
    rw [List.map_eq_nil_iff] at hnil
    exact List.ne_nil_of_mem hmem hnil
  obtain ⟨x, xs, hxs⟩ := List.exists_cons_of_ne_nil harr
  unfold activeStack
  rw [hxs]
  exact dedupByCall_cons_ne_nil x xs

/-! ### Claim C8 -/

/-- C8 counterexample: for the solve request `n = 1, from = 0, to = 2,
aux = [1]` (the `pegCount = 3, diskCount = 1` configuration) the trace
has length 3, yet the active-stack derivation at prefix length 3 (the
full trace) is non-empty: the trailing `exit` step has no later matching
`exit` and survives both filters. -/
theorem activeStack_full_length_counterexample :
    ((computeMovesWithTrace 1 0 2 [1] 0).2).length = 3 ∧
    activeStack (computeMovesWithTrace 1 0 2 [1] 0).2 3 ≠ [] := by
  exact ⟨rfl, by decide⟩

/-- C8 (amended): the active-stack derivation at prefix length 0 is
always empty, but at full trace length it is NOT empty for any solve
request with `n ≥ 1` — the final `exit` step of the root call (and of
the last calls at each depth) survives the filters. -/
theorem activeStack_prefix_zero_and_full :
    (∀ trace : List RecursionStep, activeStack trace 0 = []) ∧
    (∀ (n f t : Nat) (aux : List Nat) (d : Nat), 1 ≤ n →
      activeStack (computeMovesWithTrace n f t aux d).2
        ((computeMovesWithTrace n f t aux d).2).length ≠ []) := by
  constructor
  · intro trace
    simp [activeStack, keepUnexited, dedupByCall]
  · intro n f t aux d h
    obtain ⟨pre, hpre⟩ := trace_ends_with_exit n f t aux d h
    rw [hpre]
    exact activeStack_full_of_ends_exit pre _

/-- Witness for the amended C8 at `n = 1, from = 0, to = 2, aux = [1]`. -/
theorem activeStack_prefix_zero_and_full_witness :
    1 ≤ 1 ∧
      activeStack (computeMovesWithTrace 1 0 2 [1] 0).2
        ((computeMovesWithTrace 1 0 2 [1] 0).2).length ≠ [] :=
  ⟨by decide, activeStack_prefix_zero_and_full.2 1 0 2 [1] 0 (by decide)⟩
